import Mathlib

/-!
The buffer transfer utility of the AWG DLL (`memCopier`).

A shallow embedding of `awg/memCopier/main.cpp`.  Memory is a finite list of
bytes, a pointer is a byte offset into it, and every access is checked, so
that an access outside the memory is an explicit fault rather than undefined
behaviour.  `size_t` is `Nat` reduced modulo `2 ^ w`; `w` is the bit width of
`size_t` on the target (32 or 64 for the platforms the DLL is built for).
-/

namespace MemCopier

/-- One byte of memory. -/
abbrev Byte := Fin 256

/-- The memory: byte `a` of the list is the byte at address `a`. -/
abbrev Mem := List Byte

/-- The ways a call can leave defined behaviour. -/
inductive Fault where
  | outOfBounds
  | overlap
  deriving DecidableEq, Repr

/-- Equality of results is decidable, so that concrete runs can be evaluated. -/
instance instDecidableEqResult {α : Type} [DecidableEq α] : DecidableEq (Except Fault α) :=
  fun x y =>
    match x, y with
    | .ok a, .ok b =>
      if h : a = b then isTrue (by rw [h]) else isFalse (fun h2 => h (Except.ok.inj h2))
    | .error a, .error b =>
      if h : a = b then isTrue (by rw [h]) else isFalse (fun h2 => h (Except.error.inj h2))
    | .ok _, .error _ => isFalse (fun h => Except.noConfusion h)
    | .error _, .ok _ => isFalse (fun h => Except.noConfusion h)

/-- Checked read of the byte at address `a`. -/
def load (mem : Mem) (a : Nat) : Except Fault Byte :=
  match mem[a]? with
  | some b => .ok b
  | none => .error .outOfBounds

/-- Checked write of the byte at address `a`. -/
def store (mem : Mem) (a : Nat) (b : Byte) : Except Fault Mem :=
  if a < mem.length then .ok (mem.set a b) else .error .outOfBounds

/-- The value of the `short` whose object representation is the bytes `lo`, `hi`
(little endian, two's complement). -/
def shortOfBytes (lo hi : Byte) : Int :=
  if lo.val + 256 * hi.val < 32768 then (lo.val + 256 * hi.val : Int)
  else (lo.val + 256 * hi.val : Int) - 65536

/-- Low byte of the object representation of a `short`. -/
def shortLo (v : Int) : Byte := Fin.ofNat ((v % 65536).toNat % 256)

/-- High byte of the object representation of a `short`. -/
def shortHi (v : Int) : Byte := Fin.ofNat ((v % 65536).toNat / 256)

/-- Read of `((short*)p)[0]` for the byte address `a` of `p`. -/
def loadShort (mem : Mem) (a : Nat) : Except Fault Int :=
  match load mem a with
  | .error e => .error e
  | .ok lo =>
    match load mem (a + 1) with
    | .error e => .error e
    | .ok hi => .ok (shortOfBytes lo hi)

/-- Write of `((short*)p)[0] = v` for the byte address `a` of `p`. -/
def storeShort (mem : Mem) (a : Nat) (v : Int) : Except Fault Mem :=
  match store mem a (shortLo v) with
  | .error e => .error e
  | .ok mem1 => store mem1 (a + 1) (shortHi v)

/-- Ascending byte-by-byte copy of `n` bytes from `src` to `dst`. -/
def copyFwd (mem : Mem) (dst src : Nat) : Nat → Except Fault Mem
  | 0 => .ok mem
  | n + 1 =>
    match load mem src with
    | .error e => .error e
    | .ok b =>
      match store mem dst b with
      | .error e => .error e
      | .ok mem1 => copyFwd mem1 (dst + 1) (src + 1) n

/-- Descending byte-by-byte copy of `n` bytes from `src` to `dst`. -/
def copyBwd (mem : Mem) (dst src : Nat) : Nat → Except Fault Mem
  | 0 => .ok mem
  | n + 1 =>
    match load mem (src + n) with
    | .error e => .error e
    | .ok b =>
      match store mem (dst + n) b with
      | .error e => .error e
      | .ok mem1 => copyBwd mem1 dst src n

/-- Modelled from the spec: `memcpy` is the C library primitive of `string.h`,
outside the repository sources.  It copies `n` bytes from `src` to `dst`; the
regions must not overlap, the behaviour is undefined otherwise (ISO C
7.24.2.1), which is the fault `overlap` here. -/
def memcpy (mem : Mem) (dst src n : Nat) : Except Fault Mem :=
  if dst < src + n ∧ src < dst + n then .error .overlap
  else copyFwd mem dst src n

/-- Modelled from the spec: `memmove` is the C library primitive of `string.h`,
outside the repository sources.  It copies `n` bytes from `src` to `dst` and is
safe when the regions overlap (ISO C 7.24.2.2); the overlap-tolerant algorithm
is the direction-aware copy: ascending when the destination starts at or below
the source, descending otherwise. -/
def memmove (mem : Mem) (dst src n : Nat) : Except Fault Mem :=
  if dst ≤ src then copyFwd mem dst src n else copyBwd mem dst src n

/-- Function `memCopier`, main.cpp:9-14: `memcpy(destination,source,2*size)`, the product
taken in `size_t`. -/
def memCopier (w : Nat) (mem : Mem) (destination source size : Nat) : Except Fault Mem :=
  memcpy mem destination source ((2 * size) % 2 ^ w)

/-- Function `memMover`, main.cpp:31-36: `memmove(destination,source,2*size)`. -/
def memMover (w : Nat) (mem : Mem) (destination source size : Nat) : Except Fault Mem :=
  memmove mem destination source ((2 * size) % 2 ^ w)

/-- The `for` loop of `memCopier2`, main.cpp:42-45, entered with the index `i`:
`for (...; i<2*size; i++) ((short*)destination)[i] = ((short*)source)[i];`. -/
def memCopier2Loop (w : Nat) (mem : Mem) (destination source size i : Nat) :
    Except Fault Mem :=
  if i < (2 * size) % 2 ^ w then
    match loadShort mem (source + 2 * i) with
    | .error e => .error e
    | .ok v =>
      match storeShort mem (destination + 2 * i) v with
      | .error e => .error e
      | .ok mem1 => memCopier2Loop w mem1 destination source size ((i + 1) % 2 ^ w)
  else .ok mem
termination_by (2 * size) % 2 ^ w - i
decreasing_by
  have hlt : (2 * size) % 2 ^ w < 2 ^ w := Nat.mod_lt _ (Nat.two_pow_pos w)
  rw [Nat.mod_eq_of_lt (Nat.lt_of_le_of_lt (Nat.succ_le_of_lt ‹_›) hlt)]
  omega

/-- Function `memCopier2`, main.cpp:38-48: the loop entered with `i=0`. -/
def memCopier2 (w : Nat) (mem : Mem) (destination source size : Nat) : Except Fault Mem :=
  memCopier2Loop w mem destination source size 0

/-- The `for` loop of `memCopier2`, main.cpp:42-45, entered with the index `i`,
instrumented: next to the result of `memCopier2Loop` it returns the values the
index `i` has when the body is entered, in the order of the iterations. -/
def memCopier2LoopTrace (w : Nat) (mem : Mem) (destination source size i : Nat) :
    List Nat × Except Fault Mem :=
  if i < (2 * size) % 2 ^ w then
    match loadShort mem (source + 2 * i) with
    | .error e => ([i], .error e)
    | .ok v =>
      match storeShort mem (destination + 2 * i) v with
      | .error e => ([i], .error e)
      | .ok mem1 =>
        (i :: (memCopier2LoopTrace w mem1 destination source size ((i + 1) % 2 ^ w)).1,
          (memCopier2LoopTrace w mem1 destination source size ((i + 1) % 2 ^ w)).2)
  else ([], .ok mem)
termination_by (2 * size) % 2 ^ w - i
decreasing_by
  all_goals
    have hlt : (2 * size) % 2 ^ w < 2 ^ w := Nat.mod_lt _ (Nat.two_pow_pos w)
    rw [Nat.mod_eq_of_lt (Nat.lt_of_le_of_lt (Nat.succ_le_of_lt ‹_›) hlt)]
    omega

/-- Reference operation: the `n` bytes at `src`, taken out of the memory into a
separate buffer. -/
def readBuffer (mem : Mem) (src n : Nat) : Except Fault (List Byte) :=
  if src + n ≤ mem.length then .ok ((mem.drop src).take n) else .error .outOfBounds

/-- Reference operation: the memory with the bytes of the separate buffer `buf`
written at `dst`. -/
def writeBuffer (mem : Mem) (dst : Nat) (buf : List Byte) : Except Fault Mem :=
  if dst + buf.length ≤ mem.length then
    .ok (mem.take dst ++ buf ++ mem.drop (dst + buf.length))
  else .error .outOfBounds

/-- Reference semantics of an overlap-safe move, after the specification: the
source's `n` bytes are first copied into a temporary buffer, and the temporary
buffer is then copied into the destination. -/
def moveViaTemp (mem : Mem) (dst src n : Nat) : Except Fault Mem :=
  match readBuffer mem src n with
  | .error e => .error e
  | .ok tmp => writeBuffer mem dst tmp

/-- Modelled from the spec: the success value `TRUE` of `windows.h`,
outside the repository sources, with the value the Windows SDK gives it. -/
def TRUE : Int := 1

/-- Modelled from the spec: the process-attach code `DLL_PROCESS_ATTACH` of `windows.h`,
outside the repository sources, with the value the Windows SDK gives it. -/
def DLL_PROCESS_ATTACH : Nat := 1

/-- Modelled from the spec: the process-detach code `DLL_PROCESS_DETACH` of `windows.h`,
outside the repository sources, with the value the Windows SDK gives it. -/
def DLL_PROCESS_DETACH : Nat := 0

/-- Modelled from the spec: the thread-attach code `DLL_THREAD_ATTACH` of `windows.h`,
outside the repository sources, with the value the Windows SDK gives it. -/
def DLL_THREAD_ATTACH : Nat := 2

/-- Modelled from the spec: the thread-detach code `DLL_THREAD_DETACH` of `windows.h`,
outside the repository sources, with the value the Windows SDK gives it. -/
def DLL_THREAD_DETACH : Nat := 3

/-- Function `DllMain`, main.cpp:57-79, as a state transformer: the memory after the call
and the returned `BOOL`.  Each `case` of the `switch` is an empty `break`. -/
def DllMain (mem : Mem) (hinstDLL fdwReason lpvReserved : Nat) : Mem × Int :=
  let afterSwitch : Mem :=
    if fdwReason = DLL_PROCESS_ATTACH then mem
    else if fdwReason = DLL_PROCESS_DETACH then mem
    else if fdwReason = DLL_THREAD_ATTACH then mem
    else if fdwReason = DLL_THREAD_DETACH then mem
    else mem
  (afterSwitch, TRUE)

/-! Section: Single accesses. -/

theorem load_of_lt (mem : Mem) (a : Nat) (h : a < mem.length) :
    load mem a = .ok (mem.get ⟨a, h⟩) := by
  unfold load
  rw [List.getElem?_eq_getElem h]
  rfl

theorem store_of_lt (mem : Mem) (a : Nat) (b : Byte) (h : a < mem.length) :
    store mem a b = .ok (mem.set a b) := by
  unfold store
  rw [if_pos h]

theorem getElem?_get (mem : Mem) (a : Nat) (h : a < mem.length) :
    some (mem.get ⟨a, h⟩) = mem[a]? := by
  rw [List.getElem?_eq_getElem h]
  rfl

/-! Section: The two byte loops. -/

/-- The ascending byte loop, run inside the memory with the destination at or
below the source or clear of it, succeeds and writes the source's original
bytes over the destination, leaving every other byte as it was. -/
theorem copyFwd_spec (n : Nat) : ∀ (mem : Mem) (dst src : Nat),
    dst + n ≤ mem.length → src + n ≤ mem.length → (dst ≤ src ∨ src + n ≤ dst) →
    ∃ mem1, copyFwd mem dst src n = .ok mem1 ∧ mem1.length = mem.length ∧
      ∀ a, mem1[a]? = if dst ≤ a ∧ a < dst + n then mem[src + (a - dst)]? else mem[a]? := by
  induction n with
  | zero =>
    intro mem dst src _ _ _
    refine ⟨mem, rfl, rfl, fun a => ?_⟩
    rw [if_neg (by omega)]
  | succ n ih =>
    intro mem dst src hd hs hov
    have hs0 : src < mem.length := by omega
    have hd0 : dst < mem.length := by omega
    obtain ⟨mem1, hrun, hlen, hget⟩ :=
      ih (mem.set dst (mem.get ⟨src, hs0⟩)) (dst + 1) (src + 1)
        (by rw [List.length_set]; omega) (by rw [List.length_set]; omega) (by omega)
    refine ⟨mem1, ?_, ?_, fun a => ?_⟩
    · rw [copyFwd, load_of_lt mem src hs0]
      simp only []
      rw [store_of_lt mem dst _ hd0]
      exact hrun
    · rw [hlen, List.length_set]
    · rw [hget a]
      by_cases h1 : dst + 1 ≤ a ∧ a < dst + 1 + n
      · rw [if_pos h1, if_pos (by omega), List.getElem?_set_ne (by omega)]
        congr 1
        omega
      · rw [if_neg h1]
        by_cases h2 : a = dst
        · subst h2
          rw [if_pos (by omega), List.getElem?_set_self hd0, Nat.sub_self, Nat.add_zero]
          exact getElem?_get mem src hs0
        · rw [if_neg (by omega), List.getElem?_set_ne (fun h => h2 h.symm)]

/-- The descending byte loop, run inside the memory with the destination at or
above the source or clear of it, succeeds and writes the source's original
bytes over the destination, leaving every other byte as it was. -/
theorem copyBwd_spec (n : Nat) : ∀ (mem : Mem) (dst src : Nat),
    dst + n ≤ mem.length → src + n ≤ mem.length → (src ≤ dst ∨ dst + n ≤ src) →
    ∃ mem1, copyBwd mem dst src n = .ok mem1 ∧ mem1.length = mem.length ∧
      ∀ a, mem1[a]? = if dst ≤ a ∧ a < dst + n then mem[src + (a - dst)]? else mem[a]? := by
  induction n with
  | zero =>
    intro mem dst src _ _ _
    refine ⟨mem, rfl, rfl, fun a => ?_⟩
    rw [if_neg (by omega)]
  | succ n ih =>
    intro mem dst src hd hs hov
    have hs0 : src + n < mem.length := by omega
    have hd0 : dst + n < mem.length := by omega
    obtain ⟨mem1, hrun, hlen, hget⟩ :=
      ih (mem.set (dst + n) (mem.get ⟨src + n, hs0⟩)) dst src
        (by rw [List.length_set]; omega) (by rw [List.length_set]; omega) (by omega)
    refine ⟨mem1, ?_, ?_, fun a => ?_⟩
    · rw [copyBwd, load_of_lt mem (src + n) hs0]
      simp only []
      rw [store_of_lt mem (dst + n) _ hd0]
      exact hrun
    · rw [hlen, List.length_set]
    · rw [hget a]
      by_cases h1 : dst ≤ a ∧ a < dst + n
      · rw [if_pos h1, if_pos (by omega), List.getElem?_set_ne (by omega)]
      · rw [if_neg h1]
        by_cases h2 : a = dst + n
        · subst h2
          rw [if_pos (by omega), List.getElem?_set_self hd0, Nat.add_sub_cancel_left]
          exact getElem?_get mem (src + n) hs0
        · rw [if_neg (by omega), List.getElem?_set_ne (fun h => h2 h.symm)]

/-! Section: Two-byte accesses. -/

theorem shortLo_shortOfBytes (lo hi : Byte) : shortLo (shortOfBytes lo hi) = lo := by
  apply Fin.ext
  have h1 := lo.isLt
  have h2 := hi.isLt
  simp only [shortLo, shortOfBytes, Fin.ofNat]
  split <;> omega

theorem shortHi_shortOfBytes (lo hi : Byte) : shortHi (shortOfBytes lo hi) = hi := by
  apply Fin.ext
  have h1 := lo.isLt
  have h2 := hi.isLt
  simp only [shortHi, shortOfBytes, Fin.ofNat]
  split <;> omega

theorem loadShort_of_lt (mem : Mem) (a : Nat) (h : a + 1 < mem.length) :
    loadShort mem a =
      .ok (shortOfBytes (mem.get ⟨a, by omega⟩) (mem.get ⟨a + 1, h⟩)) := by
  rw [loadShort, load_of_lt mem a (by omega)]
  simp only []
  rw [load_of_lt mem (a + 1) h]

theorem storeShort_of_lt (mem : Mem) (a : Nat) (v : Int) (h : a + 1 < mem.length) :
    storeShort mem a v = .ok ((mem.set a (shortLo v)).set (a + 1) (shortHi v)) := by
  rw [storeShort, store_of_lt mem a _ (by omega)]
  simp only []
  rw [store_of_lt _ (a + 1) _ (by rw [List.length_set]; exact h)]

/-! Section: The word loop of `memCopier2`. -/

/-- The word loop entered at index `i`, run inside the memory with the
destination at or below the source or clear of it, succeeds and writes the
source's original bytes over the rest of the destination. -/
theorem memCopier2Loop_spec (w dst src size : Nat) (k : Nat) : ∀ (mem : Mem) (i : Nat),
    (2 * size) % 2 ^ w - i = k → i ≤ (2 * size) % 2 ^ w →
    dst + 2 * ((2 * size) % 2 ^ w) ≤ mem.length →
    src + 2 * ((2 * size) % 2 ^ w) ≤ mem.length →
    (dst ≤ src ∨ src + 2 * ((2 * size) % 2 ^ w) ≤ dst) →
    ∃ mem1, memCopier2Loop w mem dst src size i = .ok mem1 ∧ mem1.length = mem.length ∧
      ∀ a, mem1[a]? =
        if dst + 2 * i ≤ a ∧ a < dst + 2 * ((2 * size) % 2 ^ w) then mem[src + (a - dst)]?
        else mem[a]? := by
  induction k with
  | zero =>
    intro mem i hk hi _ _ _
    refine ⟨mem, ?_, rfl, fun a => ?_⟩
    · rw [memCopier2Loop, if_neg (by omega)]
    · rw [if_neg (by omega)]
  | succ k ih =>
    intro mem i hk hi hd hs hov
    have hlt : i < (2 * size) % 2 ^ w := by omega
    have hB : (2 * size) % 2 ^ w < 2 ^ w := Nat.mod_lt _ (Nat.two_pow_pos w)
    have hnext : (i + 1) % 2 ^ w = i + 1 := Nat.mod_eq_of_lt (by omega)
    have hs1 : src + 2 * i + 1 < mem.length := by omega
    have hd1 : dst + 2 * i + 1 < mem.length := by omega
    obtain ⟨mem1, hrun, hlen, hget⟩ :=
      ih ((mem.set (dst + 2 * i) (mem.get ⟨src + 2 * i, by omega⟩)).set (dst + 2 * i + 1)
            (mem.get ⟨src + 2 * i + 1, hs1⟩)) (i + 1)
        (by omega) (by omega)
        (by rw [List.length_set, List.length_set]; exact hd)
        (by rw [List.length_set, List.length_set]; exact hs) hov
    refine ⟨mem1, ?_, ?_, fun a => ?_⟩
    · rw [memCopier2Loop, if_pos hlt, loadShort_of_lt mem (src + 2 * i) hs1]
      simp only []
      rw [storeShort_of_lt mem (dst + 2 * i) _ hd1]
      simp only []
      rw [shortLo_shortOfBytes, shortHi_shortOfBytes, hnext]
      exact hrun
    · rw [hlen, List.length_set, List.length_set]
    · rw [hget a]
      by_cases h1 : dst + 2 * (i + 1) ≤ a ∧ a < dst + 2 * ((2 * size) % 2 ^ w)
      · rw [if_pos h1, if_pos (by omega), List.getElem?_set_ne (by omega),
          List.getElem?_set_ne (by omega)]
      · rw [if_neg h1]
        by_cases h2 : a = dst + 2 * i + 1
        · subst h2
          rw [if_pos (by omega),
            List.getElem?_set_self (by rw [List.length_set]; exact hd1)]
          rw [getElem?_get mem (src + 2 * i + 1) hs1]
          congr 1
          omega
        · rw [List.getElem?_set_ne (fun h => h2 h.symm)]
          by_cases h3 : a = dst + 2 * i
          · subst h3
            rw [if_pos (by omega), List.getElem?_set_self (by omega),
              getElem?_get mem (src + 2 * i) (by omega)]
            congr 1
            omega
          · rw [if_neg (by omega), List.getElem?_set_ne (fun h => h3 h.symm)]

/-! Section: The reference move. -/

/-- Inside the memory the reference move succeeds, and its result is the memory
with the source's original bytes over the destination. -/
theorem moveViaTemp_spec (mem : Mem) (dst src n : Nat)
    (hd : dst + n ≤ mem.length) (hs : src + n ≤ mem.length) :
    ∃ mem1, moveViaTemp mem dst src n = .ok mem1 ∧ mem1.length = mem.length ∧
      ∀ a, mem1[a]? = if dst ≤ a ∧ a < dst + n then mem[src + (a - dst)]? else mem[a]? := by
  have hbuf : ((mem.drop src).take n).length = n := by
    rw [List.length_take, List.length_drop]
    omega
  refine ⟨mem.take dst ++ (mem.drop src).take n ++ mem.drop (dst + n), ?_, ?_, fun a => ?_⟩
  · rw [moveViaTemp, readBuffer, if_pos hs]
    simp only []
    rw [writeBuffer, hbuf, if_pos hd]
  · simp only [List.length_append, List.length_take, List.length_drop]
    omega
  · have htake : (mem.take dst).length = dst := by
      rw [List.length_take]
      omega
    by_cases h1 : a < dst
    · rw [if_neg (by omega), List.append_assoc, List.getElem?_append_left (by omega),
        List.getElem?_take_of_lt h1]
    · rw [List.append_assoc, List.getElem?_append_right (by omega), htake]
      by_cases h2 : a < dst + n
      · rw [if_pos (by omega), List.getElem?_append_left (by omega),
          List.getElem?_take_of_lt (by omega), List.getElem?_drop]
      · rw [if_neg (by omega), List.getElem?_append_right (by omega), hbuf,
          List.getElem?_drop]
        congr 1
        omega

/-- Two runs with the same pointwise description have the same result. -/
theorem eq_of_same_bytes (mem mem1 mem2 : Mem) (dst src n : Nat)
    (h1 : ∀ a, mem1[a]? = if dst ≤ a ∧ a < dst + n then mem[src + (a - dst)]? else mem[a]?)
    (h2 : ∀ a, mem2[a]? = if dst ≤ a ∧ a < dst + n then mem[src + (a - dst)]? else mem[a]?) :
    mem1 = mem2 :=
  List.ext_getElem? (fun a => by rw [h1 a, h2 a])

/-! Section: The exported operations. -/

/-- When the doubled count fits `size_t`, `memCopier` on regions that do not
overlap and lie inside the memory succeeds, with the source's original bytes
over the destination and every other byte as it was. -/
theorem memCopier_spec (w : Nat) (mem : Mem) (destination source count : Nat)
    (hfit : 2 * count < 2 ^ w)
    (hd : destination + 2 * count ≤ mem.length) (hs : source + 2 * count ≤ mem.length)
    (hdisj : destination + 2 * count ≤ source ∨ source + 2 * count ≤ destination) :
    ∃ mem1, memCopier w mem destination source count = .ok mem1 ∧
      mem1.length = mem.length ∧
      ∀ a, mem1[a]? =
        if destination ≤ a ∧ a < destination + 2 * count then
          mem[source + (a - destination)]?
        else mem[a]? := by
  have hn : (2 * count) % 2 ^ w = 2 * count := Nat.mod_eq_of_lt hfit
  rw [memCopier, hn, memcpy, if_neg (by omega)]
  exact copyFwd_spec (2 * count) mem destination source hd hs (by omega)

/-- Inside an address space of `2 ^ w` bytes, `memMover` on regions inside the
memory, overlapping or not, succeeds, with the source's original bytes over the
destination and every other byte as it was. -/
theorem memMover_spec (w : Nat) (mem : Mem) (destination source count : Nat)
    (haddr : mem.length ≤ 2 ^ w)
    (hd : destination + 2 * count ≤ mem.length) (hs : source + 2 * count ≤ mem.length) :
    ∃ mem1, memMover w mem destination source count = .ok mem1 ∧
      mem1.length = mem.length ∧
      ∀ a, mem1[a]? =
        if destination ≤ a ∧ a < destination + 2 * count then
          mem[source + (a - destination)]?
        else mem[a]? := by
  by_cases hfit : 2 * count < 2 ^ w
  · have hn : (2 * count) % 2 ^ w = 2 * count := Nat.mod_eq_of_lt hfit
    rw [memMover, hn, memmove]
    by_cases hle : destination ≤ source
    · rw [if_pos hle]
      exact copyFwd_spec (2 * count) mem destination source hd hs (Or.inl hle)
    · rw [if_neg hle]
      exact copyBwd_spec (2 * count) mem destination source hd hs (Or.inl (by omega))
  · have hall : 2 * count = 2 ^ w := by omega
    have hd0 : destination = 0 := by omega
    have hs0 : source = 0 := by omega
    refine ⟨mem, ?_, rfl, fun a => ?_⟩
    · rw [memMover, hall, Nat.mod_self, memmove, hd0, hs0, if_pos (Nat.le_refl 0)]
      rfl
    · rw [hd0, hs0]
      split
      · congr 1
        omega
      · rfl

/-- Two non-overlapping regions of `2 * count` bytes inside an address space of
`2 ^ w` bytes leave the doubled count below the `size_t` modulus. -/
theorem double_fits (w len destination source count : Nat) (haddr : len ≤ 2 ^ w)
    (hd : destination + 2 * count ≤ len) (hs : source + 2 * count ≤ len)
    (hdisj : destination + 2 * count ≤ source ∨ source + 2 * count ≤ destination) :
    2 * count < 2 ^ w := by
  have hpos : 0 < 2 ^ w := Nat.two_pow_pos w
  omega

/-- Claim C1: for every count and every pair of non-overlapping source and
destination regions of at least `2 * count` bytes, `memCopier` succeeds and
afterwards the first `2 * count` bytes of the destination are the first
`2 * count` bytes the source held before the call. -/
theorem memCopier_copies_source (w : Nat) (mem : Mem) (destination source count : Nat)
    (haddr : mem.length ≤ 2 ^ w)
    (hd : destination + 2 * count ≤ mem.length) (hs : source + 2 * count ≤ mem.length)
    (hdisj : destination + 2 * count ≤ source ∨ source + 2 * count ≤ destination) :
    ∃ mem1, memCopier w mem destination source count = .ok mem1 ∧
      mem1.length = mem.length ∧
      ∀ i, i < 2 * count → mem1[destination + i]? = mem[source + i]? := by
  obtain ⟨mem1, hrun, hlen, hget⟩ := memCopier_spec w mem destination source count
    (double_fits w mem.length destination source count haddr hd hs hdisj) hd hs hdisj
  refine ⟨mem1, hrun, hlen, fun i hi => ?_⟩
  rw [hget (destination + i), if_pos (by omega), Nat.add_sub_cancel_left]

/-- Witness of C1 on an eight-byte memory. -/
theorem memCopier_copies_source_witness :
    (([1, 2, 3, 4, 0, 0, 0, 0] : Mem).length ≤ 2 ^ 64 ∧
      4 + 2 * 2 ≤ ([1, 2, 3, 4, 0, 0, 0, 0] : Mem).length ∧
      0 + 2 * 2 ≤ ([1, 2, 3, 4, 0, 0, 0, 0] : Mem).length ∧
      (4 + 2 * 2 ≤ 0 ∨ 0 + 2 * 2 ≤ 4)) ∧
    ∃ mem1, memCopier 64 [1, 2, 3, 4, 0, 0, 0, 0] 4 0 2 = .ok mem1 ∧
      mem1.length = ([1, 2, 3, 4, 0, 0, 0, 0] : Mem).length ∧
      ∀ i, i < 2 * 2 → mem1[4 + i]? = ([1, 2, 3, 4, 0, 0, 0, 0] : Mem)[0 + i]? :=
  ⟨by decide,
    memCopier_copies_source 64 [1, 2, 3, 4, 0, 0, 0, 0] 4 0 2
      (by decide) (by decide) (by decide) (by decide)⟩

/-- Claim C2, evaluated on the specification's own example (source bytes
`[1,2,3,4]` at address 0, a destination of four bytes at address 4, count 2):
`memCopier` fills the destination with `[1,2,3,4]`, while `memCopier2` loops
over four words and its third iteration stores at bytes 8 and 9, outside the
destination and the memory. -/
theorem memCopier2_example_overrun :
    memCopier 64 [1, 2, 3, 4, 0, 0, 0, 0] 4 0 2 = .ok [1, 2, 3, 4, 1, 2, 3, 4] ∧
    memCopier2 64 [1, 2, 3, 4, 0, 0, 0, 0] 4 0 2 = .error .outOfBounds := by
  constructor
  · decide
  · simp [memCopier2, memCopier2Loop, loadShort, storeShort, load, store,
      shortLo_shortOfBytes, shortHi_shortOfBytes]

/-- Claim C3: for every count and every pair of source and destination regions
of at least `2 * count` bytes inside one memory, overlapping or not, `memMover`
succeeds and leaves the memory that copying the source into a temporary buffer
and the temporary buffer into the destination leaves. -/
theorem memMover_eq_moveViaTemp (w : Nat) (mem : Mem) (destination source count : Nat)
    (haddr : mem.length ≤ 2 ^ w)
    (hd : destination + 2 * count ≤ mem.length) (hs : source + 2 * count ≤ mem.length) :
    ∃ mem1, memMover w mem destination source count = .ok mem1 ∧
      moveViaTemp mem destination source (2 * count) = .ok mem1 := by
  obtain ⟨ref, href, _, hrefget⟩ := moveViaTemp_spec mem destination source (2 * count) hd hs
  obtain ⟨mem1, hrun, _, hget⟩ := memMover_spec w mem destination source count haddr hd hs
  refine ⟨mem1, hrun, ?_⟩
  rw [href, eq_of_same_bytes mem mem1 ref destination source (2 * count) hget hrefget]

/-- Witness of C3 on a ten-byte memory with overlapping regions. -/
theorem memMover_eq_moveViaTemp_witness :
    (([1, 2, 3, 4, 5, 6, 7, 8, 9, 10] : Mem).length ≤ 2 ^ 64 ∧
      4 + 2 * 3 ≤ ([1, 2, 3, 4, 5, 6, 7, 8, 9, 10] : Mem).length ∧
      0 + 2 * 3 ≤ ([1, 2, 3, 4, 5, 6, 7, 8, 9, 10] : Mem).length) ∧
    ∃ mem1, memMover 64 [1, 2, 3, 4, 5, 6, 7, 8, 9, 10] 4 0 3 = .ok mem1 ∧
      moveViaTemp [1, 2, 3, 4, 5, 6, 7, 8, 9, 10] 4 0 (2 * 3) = .ok mem1 :=
  ⟨by decide,
    memMover_eq_moveViaTemp 64 [1, 2, 3, 4, 5, 6, 7, 8, 9, 10] 4 0 3
      (by decide) (by decide) (by decide)⟩

/-! Frame and safety of the three operations, one at a time. -/

theorem store_result (mem : Mem) (a : Nat) (b : Byte) (mem1 : Mem)
    (h : store mem a b = .ok mem1) : mem1 = mem.set a b := by
  unfold store at h
  split at h
  · exact (Except.ok.inj h).symm
  · exact Except.noConfusion h

/-- A successful ascending byte loop changes no byte outside the `n` bytes at
`dst`. -/
theorem copyFwd_frame (n : Nat) : ∀ (mem : Mem) (dst src : Nat) (mem1 : Mem),
    copyFwd mem dst src n = .ok mem1 →
    ∀ a, (a < dst ∨ dst + n ≤ a) → mem1[a]? = mem[a]? := by
  induction n with
  | zero =>
    intro mem dst src mem1 h a _
    rw [← Except.ok.inj h]
  | succ n ih =>
    intro mem dst src mem1 h a ha
    rw [copyFwd] at h
    split at h
    · exact Except.noConfusion h
    · split at h
      · exact Except.noConfusion h
      · rename_i _ b _ _ mem2 hst
        rw [ih mem2 (dst + 1) (src + 1) mem1 h a (by omega),
          store_result mem dst b mem2 hst, List.getElem?_set_ne (by omega)]

/-- A successful descending byte loop changes no byte outside the `n` bytes at
`dst`. -/
theorem copyBwd_frame (n : Nat) : ∀ (mem : Mem) (dst src : Nat) (mem1 : Mem),
    copyBwd mem dst src n = .ok mem1 →
    ∀ a, (a < dst ∨ dst + n ≤ a) → mem1[a]? = mem[a]? := by
  induction n with
  | zero =>
    intro mem dst src mem1 h a _
    rw [← Except.ok.inj h]
  | succ n ih =>
    intro mem dst src mem1 h a ha
    rw [copyBwd] at h
    split at h
    · exact Except.noConfusion h
    · split at h
      · exact Except.noConfusion h
      · rename_i _ b _ _ mem2 hst
        rw [ih mem2 dst src mem1 h a (by omega),
          store_result mem (dst + n) b mem2 hst, List.getElem?_set_ne (by omega)]

/-- Frame of `memCopier`: whatever the count and the pointers, a call that
succeeds changes no byte outside the destination's first `2 * count` bytes. -/
theorem memCopier_frame (w : Nat) (mem : Mem) (destination source count : Nat) (mem1 : Mem)
    (h : memCopier w mem destination source count = .ok mem1) (a : Nat)
    (ha : a < destination ∨ destination + 2 * count ≤ a) : mem1[a]? = mem[a]? := by
  have hle : (2 * count) % 2 ^ w ≤ 2 * count := Nat.mod_le _ _
  rw [memCopier, memcpy] at h
  split at h
  · exact Except.noConfusion h
  · exact copyFwd_frame _ mem destination source mem1 h a (by omega)

/-- Frame of `memMover`: whatever the count and the pointers, a call that
succeeds changes no byte outside the destination's first `2 * count` bytes. -/
theorem memMover_frame (w : Nat) (mem : Mem) (destination source count : Nat) (mem1 : Mem)
    (h : memMover w mem destination source count = .ok mem1) (a : Nat)
    (ha : a < destination ∨ destination + 2 * count ≤ a) : mem1[a]? = mem[a]? := by
  have hle : (2 * count) % 2 ^ w ≤ 2 * count := Nat.mod_le _ _
  rw [memMover, memmove] at h
  split at h
  · exact copyFwd_frame _ mem destination source mem1 h a (by omega)
  · exact copyBwd_frame _ mem destination source mem1 h a (by omega)

/-- Safety of `memCopier`: with both regions of `2 * count` bytes inside the
memory, no access of the call is out of bounds. -/
theorem memCopier_in_bounds (w : Nat) (mem : Mem) (destination source count : Nat)
    (hd : destination + 2 * count ≤ mem.length) (hs : source + 2 * count ≤ mem.length) :
    memCopier w mem destination source count ≠ .error .outOfBounds := by
  have hle : (2 * count) % 2 ^ w ≤ 2 * count := Nat.mod_le _ _
  rw [memCopier, memcpy]
  split
  · exact fun h => Fault.noConfusion (Except.error.inj h)
  · obtain ⟨mem1, hrun, _, _⟩ :=
      copyFwd_spec ((2 * count) % 2 ^ w) mem destination source (by omega) (by omega)
        (by omega)
    rw [hrun]
    exact fun h => Except.noConfusion h

/-- Safety of `memMover`: with both regions of `2 * count` bytes inside the
memory, the call succeeds. -/
theorem memMover_in_bounds (w : Nat) (mem : Mem) (destination source count : Nat)
    (hd : destination + 2 * count ≤ mem.length) (hs : source + 2 * count ≤ mem.length) :
    ∃ mem1, memMover w mem destination source count = .ok mem1 := by
  have hle : (2 * count) % 2 ^ w ≤ 2 * count := Nat.mod_le _ _
  rw [memMover, memmove]
  split
  · obtain ⟨mem1, hrun, _, _⟩ :=
      copyFwd_spec ((2 * count) % 2 ^ w) mem destination source (by omega) (by omega)
        (by omega)
    exact ⟨mem1, hrun⟩
  · obtain ⟨mem1, hrun, _, _⟩ :=
      copyBwd_spec ((2 * count) % 2 ^ w) mem destination source (by omega) (by omega)
        (by omega)
    exact ⟨mem1, hrun⟩

/-- The word loop entered at index `i` succeeds when `2 * (2 * size)` bytes at
each pointer are inside the memory, overlapping or not. -/
theorem memCopier2Loop_in_bounds (w dst src size : Nat) (k : Nat) : ∀ (mem : Mem) (i : Nat),
    (2 * size) % 2 ^ w - i = k → i ≤ (2 * size) % 2 ^ w →
    dst + 2 * ((2 * size) % 2 ^ w) ≤ mem.length →
    src + 2 * ((2 * size) % 2 ^ w) ≤ mem.length →
    ∃ mem1, memCopier2Loop w mem dst src size i = .ok mem1 := by
  induction k with
  | zero =>
    intro mem i hk hi _ _
    exact ⟨mem, by rw [memCopier2Loop, if_neg (by omega)]⟩
  | succ k ih =>
    intro mem i hk hi hd hs
    have hlt : i < (2 * size) % 2 ^ w := by omega
    have hB : (2 * size) % 2 ^ w < 2 ^ w := Nat.mod_lt _ (Nat.two_pow_pos w)
    have hnext : (i + 1) % 2 ^ w = i + 1 := Nat.mod_eq_of_lt (by omega)
    have hs1 : src + 2 * i + 1 < mem.length := by omega
    have hd1 : dst + 2 * i + 1 < mem.length := by omega
    obtain ⟨mem1, hrun⟩ :=
      ih ((mem.set (dst + 2 * i) (mem.get ⟨src + 2 * i, by omega⟩)).set (dst + 2 * i + 1)
            (mem.get ⟨src + 2 * i + 1, hs1⟩)) (i + 1)
        (by omega) (by omega)
        (by rw [List.length_set, List.length_set]; exact hd)
        (by rw [List.length_set, List.length_set]; exact hs)
    refine ⟨mem1, ?_⟩
    rw [memCopier2Loop, if_pos hlt, loadShort_of_lt mem (src + 2 * i) hs1]
    simp only []
    rw [storeShort_of_lt mem (dst + 2 * i) _ hd1]
    simp only []
    rw [shortLo_shortOfBytes, shortHi_shortOfBytes, hnext]
    exact hrun

/-- Safety of `memCopier2`: with both regions of `4 * count` bytes inside the
memory, the call succeeds. -/
theorem memCopier2_in_bounds (w : Nat) (mem : Mem) (destination source count : Nat)
    (hd : destination + 4 * count ≤ mem.length) (hs : source + 4 * count ≤ mem.length) :
    ∃ mem1, memCopier2 w mem destination source count = .ok mem1 := by
  have hle : (2 * count) % 2 ^ w ≤ 2 * count := Nat.mod_le _ _
  exact memCopier2Loop_in_bounds w destination source count ((2 * count) % 2 ^ w) mem 0
    (by omega) (by omega) (by omega) (by omega)

/-- Claim C4, evaluated on a memory that is exactly a two-byte source at
address 0 followed by a two-byte destination at address 2, with count 1:
`memCopier` and `memMover` stay inside the two regions, `memCopier2` enters a
second iteration whose store at bytes 4 and 5 is outside the memory. -/
theorem memCopier2_leaves_regions_example :
    memCopier 64 [170, 187, 204, 221] 2 0 1 = .ok [170, 187, 170, 187] ∧
    memMover 64 [170, 187, 204, 221] 2 0 1 = .ok [170, 187, 170, 187] ∧
    memCopier2 64 [170, 187, 204, 221] 2 0 1 = .error .outOfBounds := by
  refine ⟨by decide, by decide, ?_⟩
  simp [memCopier2, memCopier2Loop, loadShort, storeShort, load, store,
    shortLo_shortOfBytes, shortHi_shortOfBytes]

/-- Claim C5, evaluated with count 1: with the source at address 0 and the
destination at address 4 of an eight-byte memory, `memCopier` changes bytes 4
and 5 only, while `memCopier2` also changes bytes 6 and 7, at destination
offsets 2 and 3; with the destination at address 0 and the source at address 2
of a six-byte memory, `memCopier2` overwrites the source itself. -/
theorem memCopier2_writes_past_destination_example :
    memCopier 64 [1, 2, 3, 4, 5, 6, 7, 8] 4 0 1 = .ok [1, 2, 3, 4, 1, 2, 7, 8] ∧
    memMover 64 [1, 2, 3, 4, 5, 6, 7, 8] 4 0 1 = .ok [1, 2, 3, 4, 1, 2, 7, 8] ∧
    memCopier2 64 [1, 2, 3, 4, 5, 6, 7, 8] 4 0 1 = .ok [1, 2, 3, 4, 1, 2, 3, 4] ∧
    memCopier2 64 [1, 2, 3, 4, 5, 6] 0 2 1 = .ok [3, 4, 5, 6, 5, 6] := by
  refine ⟨by decide, by decide, ?_, ?_⟩
  · simp [memCopier2, memCopier2Loop, loadShort, storeShort, load, store,
      shortLo_shortOfBytes, shortHi_shortOfBytes]
  · simp [memCopier2, memCopier2Loop, loadShort, storeShort, load, store,
      shortLo_shortOfBytes, shortHi_shortOfBytes]

/-- Claim C6: for every memory and every destination and source pointer, each
of `memCopier`, `memMover` and `memCopier2` called with count 0 succeeds and
leaves the whole memory unchanged. -/
theorem count_zero_no_mutation (w : Nat) (mem : Mem) (destination source : Nat) :
    memCopier w mem destination source 0 = .ok mem ∧
    memMover w mem destination source 0 = .ok mem ∧
    memCopier2 w mem destination source 0 = .ok mem := by
  have h0 : (2 * 0) % 2 ^ w = 0 := by rw [Nat.mul_zero, Nat.zero_mod]
  refine ⟨?_, ?_, ?_⟩
  · rw [memCopier, h0, memcpy, if_neg (by omega)]
    rfl
  · rw [memMover, h0, memmove]
    split <;> rfl
  · rw [memCopier2, memCopier2Loop, h0, if_neg (Nat.lt_irrefl 0)]

/-- Claim C7: for every count and non-overlapping source and destination
regions of at least `2 * count` bytes, a second `memCopier` call with the same
arguments, run on the memory the first call left, succeeds and leaves that
memory as it is. -/
theorem memCopier_idempotent (w : Nat) (mem : Mem) (destination source count : Nat)
    (haddr : mem.length ≤ 2 ^ w)
    (hd : destination + 2 * count ≤ mem.length) (hs : source + 2 * count ≤ mem.length)
    (hdisj : destination + 2 * count ≤ source ∨ source + 2 * count ≤ destination) :
    ∃ mem1, memCopier w mem destination source count = .ok mem1 ∧
      memCopier w mem1 destination source count = .ok mem1 := by
  have hfit := double_fits w mem.length destination source count haddr hd hs hdisj
  obtain ⟨mem1, hrun, hlen, hget⟩ :=
    memCopier_spec w mem destination source count hfit hd hs hdisj
  obtain ⟨mem2, hrun2, _, hget2⟩ :=
    memCopier_spec w mem1 destination source count hfit (by omega) (by omega) hdisj
  refine ⟨mem1, hrun, ?_⟩
  rw [hrun2]
  congr 1
  apply List.ext_getElem?
  intro a
  rw [hget2 a, hget a]
  split
  · rw [hget (source + (a - destination)), if_neg (by omega)]
  · rfl

/-- Witness of C7 on an eight-byte memory. -/
theorem memCopier_idempotent_witness :
    (([9, 8, 7, 6, 5, 4, 3, 2] : Mem).length ≤ 2 ^ 64 ∧
      0 + 2 * 2 ≤ ([9, 8, 7, 6, 5, 4, 3, 2] : Mem).length ∧
      4 + 2 * 2 ≤ ([9, 8, 7, 6, 5, 4, 3, 2] : Mem).length ∧
      (0 + 2 * 2 ≤ 4 ∨ 4 + 2 * 2 ≤ 0)) ∧
    ∃ mem1, memCopier 64 [9, 8, 7, 6, 5, 4, 3, 2] 0 4 2 = .ok mem1 ∧
      memCopier 64 mem1 0 4 2 = .ok mem1 :=
  ⟨by decide,
    memCopier_idempotent 64 [9, 8, 7, 6, 5, 4, 3, 2] 0 4 2
      (by decide) (by decide) (by decide) (by decide)⟩

/-- Claim C8: in a buffer of five 2-byte samples with the source at sample 0
(byte 0), the destination at sample 2 (byte 4) and count 3, `memMover` succeeds,
agrees with the reference move and leaves the destination's 6 bytes equal to the
source's original 6 bytes; and there is a buffer content on which the ascending
byte-by-byte copy of the same 6 bytes gives another result. -/
theorem memMover_one_sample_overlap (w : Nat) (mem : Mem)
    (haddr : mem.length ≤ 2 ^ w) (hlen : mem.length = 10) :
    (∃ mem1, memMover w mem 4 0 3 = .ok mem1 ∧ moveViaTemp mem 4 0 6 = .ok mem1 ∧
      ∀ i, i < 6 → mem1[4 + i]? = mem[i]?) ∧
    ∃ mem0 : Mem, mem0.length = 10 ∧ copyFwd mem0 4 0 6 ≠ memMover w mem0 4 0 3 := by
  constructor
  · obtain ⟨ref, href, _, hrefget⟩ :=
      moveViaTemp_spec mem 4 0 (2 * 3) (by omega) (by omega)
    obtain ⟨mem1, hrun, _, hget⟩ := memMover_spec w mem 4 0 3 haddr (by omega) (by omega)
    refine ⟨mem1, hrun, ?_, fun i hi => ?_⟩
    · rw [href, eq_of_same_bytes mem mem1 ref 4 0 (2 * 3) hget hrefget]
    · rw [hget (4 + i), if_pos (by omega)]
      congr 1
      omega
  · refine ⟨[1, 2, 3, 4, 5, 6, 7, 8, 9, 10], rfl, ?_⟩
    have hn : (2 * 3) % 2 ^ w = 6 := Nat.mod_eq_of_lt (by omega)
    rw [memMover, hn]
    decide

/-- Witness of C8 on the buffer holding the bytes 1 to 10. -/
theorem memMover_one_sample_overlap_witness :
    (([1, 2, 3, 4, 5, 6, 7, 8, 9, 10] : Mem).length ≤ 2 ^ 64 ∧
      ([1, 2, 3, 4, 5, 6, 7, 8, 9, 10] : Mem).length = 10) ∧
    ((∃ mem1, memMover 64 [1, 2, 3, 4, 5, 6, 7, 8, 9, 10] 4 0 3 = .ok mem1 ∧
        moveViaTemp [1, 2, 3, 4, 5, 6, 7, 8, 9, 10] 4 0 6 = .ok mem1 ∧
        ∀ i, i < 6 → mem1[4 + i]? = ([1, 2, 3, 4, 5, 6, 7, 8, 9, 10] : Mem)[i]?) ∧
      ∃ mem0 : Mem, mem0.length = 10 ∧ copyFwd mem0 4 0 6 ≠ memMover 64 mem0 4 0 3) :=
  ⟨by decide,
    memMover_one_sample_overlap 64 [1, 2, 3, 4, 5, 6, 7, 8, 9, 10] (by decide) (by decide)⟩

/-- Claim C9: `DllMain` returns `TRUE` for every `fdwReason`, `hinstDLL` and
`lpvReserved`, and leaves the memory as it was. -/
theorem DllMain_returns_TRUE (mem : Mem) (hinstDLL fdwReason lpvReserved : Nat) :
    DllMain mem hinstDLL fdwReason lpvReserved = (mem, TRUE) := by
  unfold DllMain
  simp only [ite_self]

/-- Claim C10: when `4 * count` is below the `size_t` modulus and the regions
are non-overlapping, of at least `4 * count` bytes each, `memCopier2` with
`count` and `memCopier` with `2 * count` both succeed and leave the same memory:
the source's first `4 * count` bytes over the destination, every other byte as
it was. -/
theorem memCopier2_eq_memCopier_double (w : Nat) (mem : Mem)
    (destination source count : Nat) (hfit : 4 * count < 2 ^ w)
    (hd : destination + 4 * count ≤ mem.length) (hs : source + 4 * count ≤ mem.length)
    (hdisj : destination + 4 * count ≤ source ∨ source + 4 * count ≤ destination) :
    ∃ mem1, memCopier2 w mem destination source count = .ok mem1 ∧
      memCopier w mem destination source (2 * count) = .ok mem1 ∧
      ∀ a, mem1[a]? =
        if destination ≤ a ∧ a < destination + 4 * count then
          mem[source + (a - destination)]?
        else mem[a]? := by
  have hB : (2 * count) % 2 ^ w = 2 * count := Nat.mod_eq_of_lt (by omega)
  obtain ⟨mem1, hrun, _, hget⟩ :=
    memCopier2Loop_spec w destination source count ((2 * count) % 2 ^ w) mem 0
      (by omega) (by omega) (by omega) (by omega) (by omega)
  obtain ⟨mem2, hrun2, _, hget2⟩ :=
    memCopier_spec w mem destination source (2 * count) (by omega) (by omega) (by omega)
      (by omega)
  have hpoint : ∀ a, mem1[a]? =
      if destination ≤ a ∧ a < destination + 4 * count then
        mem[source + (a - destination)]?
      else mem[a]? := by
    intro a
    rw [hget a, hB]
    by_cases h : destination ≤ a ∧ a < destination + 4 * count
    · rw [if_pos h, if_pos (by omega)]
    · rw [if_neg h, if_neg (by omega)]
  have hsame : mem2 = mem1 := by
    apply List.ext_getElem?
    intro a
    rw [hget2 a, hpoint a]
    by_cases h : destination ≤ a ∧ a < destination + 4 * count
    · rw [if_pos h, if_pos (by omega)]
    · rw [if_neg h, if_neg (by omega)]
  refine ⟨mem1, hrun, ?_, hpoint⟩
  rw [hrun2, hsame]

/-- Witness of C10 on a sixteen-byte memory. -/
theorem memCopier2_eq_memCopier_double_witness :
    (4 * 2 < 2 ^ 64 ∧
      8 + 4 * 2 ≤ ([1, 2, 3, 4, 5, 6, 7, 8, 0, 0, 0, 0, 0, 0, 0, 0] : Mem).length ∧
      0 + 4 * 2 ≤ ([1, 2, 3, 4, 5, 6, 7, 8, 0, 0, 0, 0, 0, 0, 0, 0] : Mem).length ∧
      (8 + 4 * 2 ≤ 0 ∨ 0 + 4 * 2 ≤ 8)) ∧
    ∃ mem1, memCopier2 64 [1, 2, 3, 4, 5, 6, 7, 8, 0, 0, 0, 0, 0, 0, 0, 0] 8 0 2 = .ok mem1 ∧
      memCopier 64 [1, 2, 3, 4, 5, 6, 7, 8, 0, 0, 0, 0, 0, 0, 0, 0] 8 0 (2 * 2) = .ok mem1 ∧
      ∀ a, mem1[a]? =
        if 8 ≤ a ∧ a < 8 + 4 * 2 then
          ([1, 2, 3, 4, 5, 6, 7, 8, 0, 0, 0, 0, 0, 0, 0, 0] : Mem)[0 + (a - 8)]?
        else ([1, 2, 3, 4, 5, 6, 7, 8, 0, 0, 0, 0, 0, 0, 0, 0] : Mem)[a]? :=
  ⟨by decide,
    memCopier2_eq_memCopier_double 64 [1, 2, 3, 4, 5, 6, 7, 8, 0, 0, 0, 0, 0, 0, 0, 0] 8 0 2
      (by decide) (by decide) (by decide) (by decide)⟩

/-! Section: The iterations of the word loop. -/

/-- The instrumented loop returns the result of the loop itself. -/
theorem memCopier2LoopTrace_snd (w dst src size : Nat) (k : Nat) : ∀ (mem : Mem) (i : Nat),
    (2 * size) % 2 ^ w - i = k →
    (memCopier2LoopTrace w mem dst src size i).2 = memCopier2Loop w mem dst src size i := by
  induction k with
  | zero =>
    intro mem i hk
    rw [memCopier2LoopTrace, memCopier2Loop, if_neg (by omega), if_neg (by omega)]
  | succ k ih =>
    intro mem i hk
    have hlt : i < (2 * size) % 2 ^ w := by omega
    have hB : (2 * size) % 2 ^ w < 2 ^ w := Nat.mod_lt _ (Nat.two_pow_pos w)
    have hnext : (i + 1) % 2 ^ w = i + 1 := Nat.mod_eq_of_lt (by omega)
    rw [memCopier2LoopTrace, memCopier2Loop, if_pos hlt, if_pos hlt, hnext]
    cases loadShort mem (src + 2 * i) with
    | error e => rfl
    | ok v =>
      simp only []
      cases storeShort mem (dst + 2 * i) v with
      | error e => rfl
      | ok mem1 =>
        simp only []
        exact ih mem1 (i + 1) (by omega)

/-- Whatever the memory and the pointers, the indices of the iterations entered
from index `i` on are `i`, `i + 1`, ... in increasing order, and there are at
most `(2 * size) % 2 ^ w - i` of them. -/
theorem memCopier2LoopTrace_fst_prefix (w dst src size : Nat) (k : Nat) :
    ∀ (mem : Mem) (i : Nat), (2 * size) % 2 ^ w - i = k →
    ∃ n, n ≤ k ∧ (memCopier2LoopTrace w mem dst src size i).1 = List.range' i n := by
  induction k with
  | zero =>
    intro mem i hk
    refine ⟨0, Nat.le_refl 0, ?_⟩
    rw [memCopier2LoopTrace, if_neg (by omega)]
    rfl
  | succ k ih =>
    intro mem i hk
    have hlt : i < (2 * size) % 2 ^ w := by omega
    have hB : (2 * size) % 2 ^ w < 2 ^ w := Nat.mod_lt _ (Nat.two_pow_pos w)
    have hnext : (i + 1) % 2 ^ w = i + 1 := Nat.mod_eq_of_lt (by omega)
    rw [memCopier2LoopTrace, if_pos hlt, hnext]
    cases loadShort mem (src + 2 * i) with
    | error e => exact ⟨1, by omega, rfl⟩
    | ok v =>
      simp only []
      cases storeShort mem (dst + 2 * i) v with
      | error e => exact ⟨1, by omega, rfl⟩
      | ok mem1 =>
        simp only []
        obtain ⟨n, hn, htr⟩ := ih mem1 (i + 1) (by omega)
        refine ⟨n + 1, by omega, ?_⟩
        rw [htr]
        rfl

/-- With `2 * ((2 * size) % 2 ^ w)` bytes at each pointer inside the memory, the
indices of the iterations entered from index `i` on are all of `i`, `i + 1`,
... up to the bound, in increasing order. -/
theorem memCopier2LoopTrace_fst (w dst src size : Nat) (k : Nat) : ∀ (mem : Mem) (i : Nat),
    (2 * size) % 2 ^ w - i = k → i ≤ (2 * size) % 2 ^ w →
    dst + 2 * ((2 * size) % 2 ^ w) ≤ mem.length →
    src + 2 * ((2 * size) % 2 ^ w) ≤ mem.length →
    (memCopier2LoopTrace w mem dst src size i).1 = List.range' i k := by
  induction k with
  | zero =>
    intro mem i hk hi _ _
    rw [memCopier2LoopTrace, if_neg (by omega)]
    rfl
  | succ k ih =>
    intro mem i hk hi hd hs
    have hlt : i < (2 * size) % 2 ^ w := by omega
    have hB : (2 * size) % 2 ^ w < 2 ^ w := Nat.mod_lt _ (Nat.two_pow_pos w)
    have hnext : (i + 1) % 2 ^ w = i + 1 := Nat.mod_eq_of_lt (by omega)
    have hs1 : src + 2 * i + 1 < mem.length := by omega
    have hd1 : dst + 2 * i + 1 < mem.length := by omega
    rw [memCopier2LoopTrace, if_pos hlt, loadShort_of_lt mem (src + 2 * i) hs1]
    simp only []
    rw [storeShort_of_lt mem (dst + 2 * i) _ hd1]
    simp only []
    rw [hnext, ih _ (i + 1) (by omega) (by omega)
      (by rw [List.length_set, List.length_set]; exact hd)
      (by rw [List.length_set, List.length_set]; exact hs)]
    rfl

/-- Claim C11: for every count, wrapped or not, the loop of `memCopier2` run on
regions inside the memory ends after exactly `(2 * count) % 2 ^ w` iterations,
the index taking the values `0, 1, ..., (2 * count) % 2 ^ w - 1` once each in
increasing order; the instrumented loop returns what `memCopier2` returns. -/
theorem memCopier2_iterations (w : Nat) (mem : Mem) (destination source count : Nat)
    (hd : destination + 2 * ((2 * count) % 2 ^ w) ≤ mem.length)
    (hs : source + 2 * ((2 * count) % 2 ^ w) ≤ mem.length) :
    memCopier2LoopTrace w mem destination source count 0 =
        (List.range ((2 * count) % 2 ^ w), memCopier2 w mem destination source count) ∧
      ∃ mem1, memCopier2 w mem destination source count = .ok mem1 := by
  constructor
  · apply Prod.ext
    · rw [memCopier2LoopTrace_fst w destination source count ((2 * count) % 2 ^ w) mem 0
        (by omega) (by omega) hd hs, List.range_eq_range']
    · exact memCopier2LoopTrace_snd w destination source count ((2 * count) % 2 ^ w) mem 0
        (by omega)
  · exact memCopier2Loop_in_bounds w destination source count ((2 * count) % 2 ^ w) mem 0
      (by omega) (by omega) hd hs

/-- Witness of C11 with a 3-bit `size_t` and count 5, where `2 * 5` wraps to 2. -/
theorem memCopier2_iterations_witness :
    (4 + 2 * ((2 * 5) % 2 ^ 3) ≤ ([1, 2, 3, 4, 5, 6, 7, 8] : Mem).length ∧
      0 + 2 * ((2 * 5) % 2 ^ 3) ≤ ([1, 2, 3, 4, 5, 6, 7, 8] : Mem).length) ∧
    (memCopier2LoopTrace 3 [1, 2, 3, 4, 5, 6, 7, 8] 4 0 5 0 =
        (List.range ((2 * 5) % 2 ^ 3), memCopier2 3 [1, 2, 3, 4, 5, 6, 7, 8] 4 0 5) ∧
      ∃ mem1, memCopier2 3 [1, 2, 3, 4, 5, 6, 7, 8] 4 0 5 = .ok mem1) :=
  ⟨by decide, memCopier2_iterations 3 [1, 2, 3, 4, 5, 6, 7, 8] 4 0 5 (by decide) (by decide)⟩

/-! Section: The word loop on overlapping ranges. -/

/-- The word loop with the destination `k` words above the source, `0 < k`:
once the bytes below destination word `i` hold the source's original bytes
repeated with a period of `k` words, the loop entered at `i` succeeds and
leaves the whole destination range in that shape.  `mem0` is the memory before
the first iteration. -/
theorem memCopier2Loop_above_source (w src k size : Nat) (mem0 : Mem) (hk : 0 < k)
    (hin : src + 2 * k + 2 * ((2 * size) % 2 ^ w) ≤ mem0.length) (r : Nat) :
    ∀ (mem : Mem) (i : Nat), (2 * size) % 2 ^ w - i = r → i ≤ (2 * size) % 2 ^ w →
    mem.length = mem0.length →
    (∀ a, mem[a]? =
      if src + 2 * k ≤ a ∧ a < src + 2 * k + 2 * i then mem0[src + (a - src) % (2 * k)]?
      else mem0[a]?) →
    ∃ mem1, memCopier2Loop w mem (src + 2 * k) src size i = .ok mem1 ∧
      ∀ a, mem1[a]? =
        if src + 2 * k ≤ a ∧ a < src + 2 * k + 2 * ((2 * size) % 2 ^ w) then
          mem0[src + (a - src) % (2 * k)]?
        else mem0[a]? := by
  induction r with
  | zero =>
    intro mem i hr hi _ hinv
    have hiB : i = (2 * size) % 2 ^ w := by omega
    refine ⟨mem, ?_, fun a => ?_⟩
    · rw [memCopier2Loop, if_neg (by omega)]
    · rw [hinv a, hiB]
  | succ r ih =>
    intro mem i hr hi hlen hinv
    have hlt : i < (2 * size) % 2 ^ w := by omega
    have hB : (2 * size) % 2 ^ w < 2 ^ w := Nat.mod_lt _ (Nat.two_pow_pos w)
    have hnext : (i + 1) % 2 ^ w = i + 1 := Nat.mod_eq_of_lt (by omega)
    have hs1 : src + 2 * i + 1 < mem.length := by omega
    have hd1 : src + 2 * k + 2 * i + 1 < mem.length := by omega
    -- the byte `src + j`, for `j` below `2 * i + 2`, already has its final value
    have hread : ∀ j, j < 2 * i + 2 → mem[src + j]? = mem0[src + j % (2 * k)]? := by
      intro j hj
      rw [hinv (src + j), Nat.add_sub_cancel_left]
      by_cases hc : src + 2 * k ≤ src + j ∧ src + j < src + 2 * k + 2 * i
      · rw [if_pos hc]
      · rw [if_neg hc, Nat.mod_eq_of_lt (by omega)]
    obtain ⟨mem1, hrun, hget⟩ :=
      ih ((mem.set (src + 2 * k + 2 * i) (mem.get ⟨src + 2 * i, by omega⟩)).set
            (src + 2 * k + 2 * i + 1) (mem.get ⟨src + 2 * i + 1, hs1⟩)) (i + 1)
        (by omega) (by omega)
        (by rw [List.length_set, List.length_set]; exact hlen)
        (by
          intro a
          by_cases h2 : a = src + 2 * k + 2 * i + 1
          · subst h2
            have e : src + 2 * k + 2 * i + 1 - src = 2 * k + (2 * i + 1) := by omega
            rw [if_pos (by omega),
              List.getElem?_set_self (by rw [List.length_set]; exact hd1),
              getElem?_get mem (src + 2 * i + 1) hs1, e, Nat.add_mod_left]
            exact hread (2 * i + 1) (by omega)
          · rw [List.getElem?_set_ne (fun h => h2 h.symm)]
            by_cases h3 : a = src + 2 * k + 2 * i
            · subst h3
              have e : src + 2 * k + 2 * i - src = 2 * k + 2 * i := by omega
              rw [if_pos (by omega), List.getElem?_set_self (by omega),
                getElem?_get mem (src + 2 * i) (by omega), e, Nat.add_mod_left]
              exact hread (2 * i) (by omega)
            · rw [List.getElem?_set_ne (fun h => h3 h.symm), hinv a]
              by_cases hc : src + 2 * k ≤ a ∧ a < src + 2 * k + 2 * i
              · rw [if_pos hc, if_pos (by omega)]
              · rw [if_neg hc, if_neg (by omega)])
    refine ⟨mem1, ?_, hget⟩
    rw [memCopier2Loop, if_pos hlt, loadShort_of_lt mem (src + 2 * i) hs1]
    simp only []
    rw [storeShort_of_lt mem (src + 2 * k + 2 * i) _ hd1]
    simp only []
    rw [shortLo_shortOfBytes, shortHi_shortOfBytes, hnext]
    exact hrun

/-- In an address space of `2 ^ w` bytes a range of `4 * count` bytes inside the
memory leaves `2 * count` below the `size_t` modulus. -/
theorem words_fit (w len start count : Nat) (haddr : len ≤ 2 ^ w)
    (hin : start + 4 * count ≤ len) : (2 * count) % 2 ^ w = 2 * count := by
  have hpos : 0 < 2 ^ w := Nat.two_pow_pos w
  exact Nat.mod_eq_of_lt (by omega)

/-- The word loop is overlap-safe downwards: with the destination at or below
the source and both ranges of `2 * count` words inside the memory, `memCopier2`
succeeds and leaves the memory that the reference move and `memMover` of those
`2 * count` words leave. -/
theorem memCopier2_below_source (w : Nat) (mem : Mem) (destination source count : Nat)
    (haddr : mem.length ≤ 2 ^ w) (hle : destination ≤ source)
    (hs : source + 4 * count ≤ mem.length) :
    ∃ mem1, memCopier2 w mem destination source count = .ok mem1 ∧
      moveViaTemp mem destination source (4 * count) = .ok mem1 ∧
      memMover w mem destination source (2 * count) = .ok mem1 ∧
      ∀ j, j < 4 * count → mem1[destination + j]? = mem[source + j]? := by
  have hB := words_fit w mem.length source count haddr hs
  obtain ⟨mem1, hrun, _, hget⟩ :=
    memCopier2Loop_spec w destination source count ((2 * count) % 2 ^ w) mem 0
      (by omega) (by omega) (by omega) (by omega) (Or.inl hle)
  obtain ⟨ref, href, _, hrefget⟩ :=
    moveViaTemp_spec mem destination source (4 * count) (by omega) hs
  obtain ⟨mv, hmv, _, hmvget⟩ :=
    memMover_spec w mem destination source (2 * count) haddr (by omega) (by omega)
  have hpoint : ∀ a, mem1[a]? =
      if destination ≤ a ∧ a < destination + 4 * count then
        mem[source + (a - destination)]?
      else mem[a]? := by
    intro a
    rw [hget a, hB]
    by_cases h : destination ≤ a ∧ a < destination + 4 * count
    · rw [if_pos h, if_pos (by omega)]
    · rw [if_neg h, if_neg (by omega)]
  have hmvpoint : ∀ a, mv[a]? =
      if destination ≤ a ∧ a < destination + 4 * count then
        mem[source + (a - destination)]?
      else mem[a]? := by
    intro a
    rw [hmvget a]
    by_cases h : destination ≤ a ∧ a < destination + 4 * count
    · rw [if_pos h, if_pos (by omega)]
    · rw [if_neg h, if_neg (by omega)]
  refine ⟨mem1, hrun, ?_, ?_, fun j hj => ?_⟩
  · rw [href, eq_of_same_bytes mem mem1 ref destination source (4 * count) hpoint hrefget]
  · rw [hmv, eq_of_same_bytes mem mem1 mv destination source (4 * count) hpoint hmvpoint]
  · rw [hpoint (destination + j), if_pos (by omega), Nat.add_sub_cancel_left]

/-- The word loop is not overlap-safe upwards: with the destination `k` words
above the source, `0 < k < 2 * count`, the memory that is zero except for a one
in the source's first byte is left by `memCopier2` in another state than by the
reference move and by `memMover` of the same `2 * count` words. -/
theorem memCopier2_above_source_differs (w len src count k : Nat) (haddr : len ≤ 2 ^ w)
    (hk : 0 < k) (hk2 : k < 2 * count) (hin : src + 2 * k + 4 * count ≤ len) :
    ∃ mem : Mem, mem.length = len ∧ ∃ m1 m2,
      memCopier2 w mem (src + 2 * k) src count = .ok m1 ∧
      moveViaTemp mem (src + 2 * k) src (4 * count) = .ok m2 ∧
      memMover w mem (src + 2 * k) src (2 * count) = .ok m2 ∧ m1 ≠ m2 := by
  have hB := words_fit w len (src + 2 * k) count haddr hin
  have hlen0 : ((List.replicate len (0 : Byte)).set src 1).length = len := by
    rw [List.length_set, List.length_replicate]
  obtain ⟨m1, hrun, hget⟩ :=
    memCopier2Loop_above_source w src k count ((List.replicate len (0 : Byte)).set src 1)
      hk (by rw [hlen0, hB]; omega) ((2 * count) % 2 ^ w)
      ((List.replicate len (0 : Byte)).set src 1) 0 (by omega) (by omega) rfl
      (fun a => by rw [if_neg (by omega)])
  obtain ⟨m2, href, _, hrefget⟩ :=
    moveViaTemp_spec ((List.replicate len (0 : Byte)).set src 1) (src + 2 * k) src
      (4 * count) (by rw [hlen0]; omega) (by rw [hlen0]; omega)
  obtain ⟨mv, hmv, _, hmvget⟩ :=
    memMover_spec w ((List.replicate len (0 : Byte)).set src 1) (src + 2 * k) src
      (2 * count) (by rw [hlen0]; exact haddr) (by rw [hlen0]; omega)
      (by rw [hlen0]; omega)
  have hmvpoint : ∀ a, mv[a]? =
      if src + 2 * k ≤ a ∧ a < src + 2 * k + 4 * count then
        ((List.replicate len (0 : Byte)).set src 1)[src + (a - (src + 2 * k))]?
      else ((List.replicate len (0 : Byte)).set src 1)[a]? := by
    intro a
    rw [hmvget a]
    by_cases h : src + 2 * k ≤ a ∧ a < src + 2 * k + 4 * count
    · rw [if_pos h, if_pos (by omega)]
    · rw [if_neg h, if_neg (by omega)]
  refine ⟨(List.replicate len (0 : Byte)).set src 1, hlen0, m1, m2, hrun, href, ?_, ?_⟩
  · rw [hmv, eq_of_same_bytes _ mv m2 (src + 2 * k) src (4 * count) hmvpoint hrefget]
  · intro heq
    have h1 := hget (src + 4 * k)
    have h2 := hrefget (src + 4 * k)
    have e1 : src + 4 * k - src = 2 * k + 2 * k := by omega
    have e2 : src + 4 * k - (src + 2 * k) = 2 * k := by omega
    rw [if_pos (by omega), e1, Nat.add_mod_left, Nat.mod_self, Nat.add_zero,
      List.getElem?_set_self (by rw [List.length_replicate]; omega)] at h1
    rw [if_pos (by omega), e2, List.getElem?_set_ne (by omega),
      List.getElem?_replicate_of_lt (by omega)] at h2
    rw [heq, h2] at h1
    exact absurd (Option.some.inj h1) (by decide)

/-- Claim C12: in a buffer of `len` bytes holding two ranges of `2 * count`
words whose starts are `k` words apart, `memCopier2` with the destination at the
lower start leaves the destination equal to the source's original content, the
memory being the one the overlap-safe move leaves; with the destination at the
upper start and `0 < k < 2 * count` there is a buffer content on which its
result is not the one of the overlap-safe move. -/
theorem memCopier2_overlap_one_direction (w len lo count k : Nat) (haddr : len ≤ 2 ^ w)
    (hin : lo + 2 * k + 4 * count ≤ len) :
    (∀ mem : Mem, mem.length = len →
      ∃ mem1, memCopier2 w mem lo (lo + 2 * k) count = .ok mem1 ∧
        moveViaTemp mem lo (lo + 2 * k) (4 * count) = .ok mem1 ∧
        memMover w mem lo (lo + 2 * k) (2 * count) = .ok mem1 ∧
        ∀ j, j < 4 * count → mem1[lo + j]? = mem[lo + 2 * k + j]?) ∧
    (0 < k → k < 2 * count →
      ∃ mem : Mem, mem.length = len ∧ ∃ m1 m2,
        memCopier2 w mem (lo + 2 * k) lo count = .ok m1 ∧
        moveViaTemp mem (lo + 2 * k) lo (4 * count) = .ok m2 ∧
        memMover w mem (lo + 2 * k) lo (2 * count) = .ok m2 ∧ m1 ≠ m2) := by
  constructor
  · intro mem hlen
    exact memCopier2_below_source w mem lo (lo + 2 * k) count (by rw [hlen]; exact haddr)
      (by omega) (by rw [hlen]; exact hin)
  · intro hk hk2
    exact memCopier2_above_source_differs w len lo count k haddr hk hk2 hin

/-- Witness of C12 on buffers of eight bytes, the starts one word apart. -/
theorem memCopier2_overlap_one_direction_witness :
    (8 ≤ 2 ^ 64 ∧ 0 + 2 * 1 + 4 * 1 ≤ 8 ∧ 0 < 1 ∧ 1 < 2 * 1) ∧
    (∀ mem : Mem, mem.length = 8 →
      ∃ mem1, memCopier2 64 mem 0 (0 + 2 * 1) 1 = .ok mem1 ∧
        moveViaTemp mem 0 (0 + 2 * 1) (4 * 1) = .ok mem1 ∧
        memMover 64 mem 0 (0 + 2 * 1) (2 * 1) = .ok mem1 ∧
        ∀ j, j < 4 * 1 → mem1[0 + j]? = mem[0 + 2 * 1 + j]?) ∧
    (∃ mem : Mem, mem.length = 8 ∧ ∃ m1 m2,
        memCopier2 64 mem (0 + 2 * 1) 0 1 = .ok m1 ∧
        moveViaTemp mem (0 + 2 * 1) 0 (4 * 1) = .ok m2 ∧
        memMover 64 mem (0 + 2 * 1) 0 (2 * 1) = .ok m2 ∧ m1 ≠ m2) :=
  ⟨by decide,
    (memCopier2_overlap_one_direction 64 8 0 1 1 (by decide) (by decide)).1,
    (memCopier2_overlap_one_direction 64 8 0 1 1 (by decide) (by decide)).2
      (by decide) (by decide)⟩

end MemCopier
